import Mathlib

set_option maxHeartbeats 1000000

/-!
Verification development for the hotstuff repository core.

This file gives a shallow embedding of:
- the LRU crypto cache (src/crypto/cache.go),
- the twins scenario safety checker (src/twins/scenario.go, checkCommits),
- the twins network drop decision (src/twins/network.go, Network.shouldDrop),
- the carousel leader rotation (src/leaderrotation/carousel.go, carousel.GetLeader),

and proves or refutes the specification claims about them.
-/

/-- A cache key as built in src/crypto/cache.go: a fixed-width 32-byte digest followed by
the signature bytes.  Since the digest has a fixed width, the byte concatenation is
modelled faithfully by a pair (digest, signature bytes).  Digests are abstract naturals,
with 0 standing for the all-zero 32-byte array. -/
abbrev CacheKey := Nat × List Nat

/-- The underlying crypto primitive (consensus.CryptoBase) together with the two external
functions the cache applies when building keys.  Messages and signatures are abstract
values.  hashMsg idealizes sha256.Sum256 on the message bytes and sigBytes idealizes
QuorumSignature.ToBytes; both are library or interface functions outside this repository,
so theorems that need their cryptographic properties (injectivity, the zero digest not
being an image) take them as hypotheses. -/
structure Primitive where
  sign : Nat → Option Nat
  verify : Nat → Nat → Bool
  batchVerify : Nat → List (Nat × List Nat) → Bool
  hashMsg : Nat → Nat
  sigBytes : Nat → List Nat

/-- LRU state of the cache (src/crypto/cache.go lines 15-21).  The entries map and the
access-order list of the Go struct are modelled by the order list alone (head = most
recently used): a key is in the map iff it occurs in the list. -/
structure CacheState where
  capacity : Nat
  order : List CacheKey
deriving DecidableEq

def initCache (cap : Nat) : CacheState := ⟨cap, []⟩

/-- cache.evict (src/crypto/cache.go lines 65-71): if the cache is not full, do nothing;
otherwise remove the least recently used key (the back of the access-order list).
With capacity 0 and an empty list the Go code would dereference a nil element; theorems
therefore assume a positive capacity. -/
def evictOrder (cap : Nat) (order : List CacheKey) : List CacheKey :=
  if order.length < cap then order else order.dropLast

/-- cache.insert (src/crypto/cache.go lines 41-52): move an existing key to the front,
otherwise evict if full and push the new key to the front. -/
def cacheInsert (s : CacheState) (k : CacheKey) : CacheState :=
  if k ∈ s.order then { s with order := k :: s.order.erase k }
  else { s with order := k :: evictOrder s.capacity s.order }

/-- cache.check (src/crypto/cache.go lines 54-63): a lookup that promotes a present key
to most recently used and reports whether it was present. -/
def cacheCheck (s : CacheState) (k : CacheKey) : Bool × CacheState :=
  if k ∈ s.order then (true, { s with order := k :: s.order.erase k }) else (false, s)

/-- The key used by Sign and Verify (src/crypto/cache.go lines 79-83 and 89-92):
sha256 of the message followed by the signature bytes. -/
def singleKey (p : Primitive) (sig m : Nat) : CacheKey := (p.hashMsg m, p.sigBytes sig)

/-- The key computed by cache.BatchVerify (src/crypto/cache.go lines 108-121).  The Go
code writes the batch messages in ascending id order into a fresh sha256 hasher, but
hasher.Sum(hash[:]) only returns a new slice with the digest appended to a copy, and that
return value is discarded, so the zero-initialized hash array still holds its zero value
when the key is built.  The key is therefore the zero digest followed by the signature
bytes, independent of the batch contents. -/
def batchKey (p : Primitive) (sig : Nat) (_batch : List (Nat × List Nat)) : CacheKey :=
  (0, p.sigBytes sig)

/-- cache.Sign (src/crypto/cache.go lines 74-85): delegate to the primitive and, on
success, insert the key for the message and the returned signature. -/
def cacheSign (p : Primitive) (s : CacheState) (m : Nat) : Option Nat × CacheState :=
  match p.sign m with
  | none => (none, s)
  | some sig => (some sig, cacheInsert s (singleKey p sig m))

/-- cache.Verify (src/crypto/cache.go lines 88-104).  The middle component of the result
records whether the underlying primitive's Verify was invoked (false on a cache hit). -/
def cacheVerify (p : Primitive) (s : CacheState) (sig m : Nat) : Bool × Bool × CacheState :=
  let c := cacheCheck s (singleKey p sig m)
  if c.1 then (true, false, c.2)
  else if p.verify sig m then (true, true, cacheInsert c.2 (singleKey p sig m))
  else (false, true, c.2)

/-- cache.BatchVerify (src/crypto/cache.go lines 107-133), with the same delegation flag
as cacheVerify. -/
def cacheBatchVerify (p : Primitive) (s : CacheState) (sig : Nat)
    (batch : List (Nat × List Nat)) : Bool × Bool × CacheState :=
  let c := cacheCheck s (batchKey p sig batch)
  if c.1 then (true, false, c.2)
  else if p.batchVerify sig batch then (true, true, cacheInsert c.2 (batchKey p sig batch))
  else (false, true, c.2)

/-- Cache states reachable from the initial state by sequences of Sign, Verify and
BatchVerify calls. -/
inductive Reach (p : Primitive) (cap : Nat) : CacheState → Prop where
  | init : Reach p cap (initCache cap)
  | sign : ∀ m s, Reach p cap s → Reach p cap (cacheSign p s m).2
  | verify : ∀ sig m s, Reach p cap s → Reach p cap (cacheVerify p s sig m).2.2
  | batch : ∀ sig b s, Reach p cap s → Reach p cap (cacheBatchVerify p s sig b).2.2

/-- Insertion of a batch entry into an id-sorted list (ascending id). -/
def insertSorted (e : Nat × List Nat) : List (Nat × List Nat) → List (Nat × List Nat)
  | [] => [e]
  | x :: xs => if e.1 ≤ x.1 then e :: x :: xs else x :: insertSorted e xs

/-- A batch sorted by ascending id. -/
def sortById (batch : List (Nat × List Nat)) : List (Nat × List Nat) :=
  batch.foldr insertSorted []

/-- Stated from the spec for comparison: the concatenation of the per-id messages in
ascending id order, which is the intended preimage of the batch digest. -/
def sortedConcat (batch : List (Nat × List Nat)) : List Nat :=
  ((sortById batch).map Prod.snd).flatten

/-- A concrete primitive whose batch verifier accepts exactly the batch with id 1 mapped
to the one-byte message 0. -/
def pBug : Primitive where
  sign := fun _ => none
  verify := fun _ _ => false
  batchVerify := fun _ b => b == [(1, [0])]
  hashMsg := fun m => m + 1
  sigBytes := fun sg => [sg]

/-- A concrete primitive that verifies everything and signs a message with the message
itself, used to instantiate theorems with hypotheses. -/
def pOk : Primitive where
  sign := fun m => some m
  verify := fun _ _ => true
  batchVerify := fun _ _ => true
  hashMsg := fun m => m + 1
  sigBytes := fun sg => [sg]

/-- The soundness invariant behind C1: every single-message key present in the cache
corresponds to a pair that the primitive verifies. -/
def GoodKeys (p : Primitive) (l : List CacheKey) : Prop :=
  ∀ m sig, singleKey p sig m ∈ l → p.verify sig m = true

/-- A sequence of insertions with no interleaving lookups (the operation sequence of the
LRU eviction property P6). -/
def insertAll (s : CacheState) (ks : List CacheKey) : CacheState := ks.foldl cacheInsert s

/-- The per-replica node groups of a twins network: network.replicas maps each ReplicaID
to the list of nodes (twins) using that id; each node is represented by the list of
hashes of its executed blocks (node.executedBlocks), block hashes abstracted as
naturals. -/
abbrev ReplicaGroups := List (List (List Nat))

/-- The contribution of one replica group to position i: its i-th executed block hash
when the replica has no twin (exactly one node for its ReplicaID) and has executed at
least i+1 blocks, nothing otherwise (the skip conditions of the checkCommits loop body,
src/twins/scenario.go lines 106-116). -/
def groupHashAt (r : List (List Nat)) (i : Nat) : Option Nat :=
  match r with
  | [blocks] => blocks.get? i
  | _ => none

/-- The number of executed blocks of a replica group that checkCommits inspects. -/
def groupLen (r : List (List Nat)) : Nat :=
  match r with
  | [blocks] => blocks.length
  | _ => 0

/-- The block hashes counted by commitCount at chain position i.  The iteration order of
the Go map does not matter because checkCommits only uses the number of distinct hashes
and emptiness. -/
def hashesAt (g : ReplicaGroups) (i : Nat) : List Nat :=
  g.filterMap fun r => groupHashAt r i

/-- An upper bound on the chain positions checkCommits can inspect. -/
def maxCommits (g : ReplicaGroups) : Nat :=
  g.foldr (fun r acc => max (groupLen r) acc) 0

/-- The loop of checkCommits (src/twins/scenario.go lines 101-132) with explicit fuel:
at position i, stop with (true, i) if no singleton replica has an i-th executed block,
return (false, i) if more than one distinct hash was committed at position i, and
otherwise advance to the next position.  checkCommits runs it with enough fuel to cover
every position, so the fuel never runs out. -/
def checkCommitsAux (g : ReplicaGroups) : Nat → Nat → Bool × Nat
  | 0, i => (true, i)
  | fuel + 1, i =>
    let hs := hashesAt g i
    if hs.isEmpty then (true, i)
    else if hs.dedup.length = 1 then checkCommitsAux g fuel (i + 1)
    else (false, i)

/-- checkCommits (src/twins/scenario.go lines 101-132). -/
def checkCommits (g : ReplicaGroups) : Bool × Nat :=
  checkCommitsAux g (maxCommits g + 1) 0

/-- One entry of the twins view plan (twins.View): the leader and the partitions (sets
of NetworkIDs) for that view. -/
structure TView where
  leader : Nat
  partitions : List (List Nat)

/-- Two's-complement reduction of an integer into the int64 range [-2^63, 2^63), as Go
arithmetic on int applies after every operation. -/
def wrapInt64 (x : Int) : Int := (x + 2 ^ 63) % 2 ^ 64 - 2 ^ 63

/-- Go's conversion int(v) of a uint64 view value: the value is reduced to 64 bits and
reinterpreted in two's complement, so views at or above 2^63 convert to negative
ints. -/
def viewToInt (v : Nat) : Int := wrapInt64 ((v % 2 ^ 64 : Nat) : Int)

/-- Network.shouldDrop (src/twins/network.go lines 170-203) as a function of the sender
node's locally observed timeout-advanced view (node.effectiveView), its synchronizer
view, the sender and receiver NetworkIDs, and the message's type tag (reflect.TypeOf
abstracted as a natural).  The views are uint64 values compared as such; the index
i := -1 followed by i += int(view) is computed in Go's 64-bit int, modelled by viewToInt
and a final wrapInt64 for the addition (which only matters at view 2^63 exactly, where
-1 + int(2^63) wraps to 2^63 - 1).  A negative index does not drop, an index past the
view plan drops, and otherwise the message survives iff some partition of the entry
contains both sender and receiver, else it is dropped iff its type tag is in the drop
set. -/
def shouldDrop (views : List TView) (dropTypes : List Nat)
    (effView syncView sender receiver msgType : Nat) : Bool :=
  let i : Int := wrapInt64 (-1 +
    (if effView % 2 ^ 64 > syncView % 2 ^ 64 then viewToInt effView
     else viewToInt syncView))
  if i < 0 then false
  else if h : i.toNat < views.length then
    if (views.get ⟨i.toNat, h⟩).partitions.any
        (fun p => p.contains sender && p.contains receiver) then false
    else dropTypes.contains msgType
  else true

/-- A block as read by the carousel: its own hash, the parent hash, the view and the
proposer (the consensus.Block fields used by carousel.GetLeader). -/
structure CBlock where
  bhash : Nat
  parent : Nat
  view : Nat
  proposer : Nat
deriving DecidableEq

/-- Modelled from the spec: the genesis block (view 0); consensus.GetGenesis is not
under src/.  The Go code compares block identity against the genesis singleton. -/
def genesisBlock : CBlock := ⟨0, 0, 0, 0⟩

/-- Modelled from the spec: f = floor((N-1)/3) (glossary); hotstuff.NumFaulty is not
under src/. -/
def numFaulty (n : Nat) : Nat := (n - 1) / 3

/-- Modelled from the spec: the round-robin leader (v-1) mod N over the stable ordering
1..N of replica IDs; leaderrotation's chooseRoundRobin is not under src/. -/
def chooseRoundRobin (round n : Nat) : Nat := (round - 1) % n + 1

/-- BlockChain().Get by hash on the local store, modelled as a lookup table. -/
def bcGet (chain : List CBlock) (h : Nat) : Option CBlock :=
  chain.find? fun b => b.bhash == h

/-- IDSet.Add on the model of an ID set as a duplicate-free list. -/
def addID (s : List Nat) (a : Nat) : List Nat := if a ∈ s then s else a :: s

/-- The lastAuthors walk of carousel.GetLeader (src/leaderrotation/carousel.go lines
40-52): while fewer than f blocks have been visited and the current block is not
genesis, add the current block's proposer and move to its parent; a failed parent lookup
ends the walk after the add.  The first argument counts the iterations still allowed
(initially f). -/
def collectLastAuthors (chain : List CBlock) : Nat → CBlock → List Nat → List Nat
  | 0, _, acc => acc
  | n + 1, block, acc =>
    if block = genesisBlock then acc
    else
      match bcGet chain block.parent with
      | some b => collectLastAuthors chain n b (addID acc block.proposer)
      | none => addID acc block.proposer

/-- View subtraction with uint64 wrap-around (consensus.View is a 64-bit integer and the
Go code computes round - View(chainLength) in uint64). -/
def viewSub (a b : Nat) : Nat := (a + (2 ^ 64 - b % 2 ^ 64)) % 2 ^ 64

/-- The inputs read by carousel.GetLeader: the committed head
(Consensus().CommittedBlock()), the participant IDs of its quorum certificate signature
(none models Signature() == nil, i.e. no commit yet; the iteration order of
IDSet.ForEach over a Go map is unspecified, so the model fixes a list order), the local
block store, the configuration size (Configuration().Len()) and the chain length
(Consensus().ChainLength()). -/
structure CarouselState where
  commitHead : CBlock
  qcParticipants : Option (List Nat)
  chain : List CBlock
  numReplicas : Nat
  chainLength : Nat

/-- The candidate list of carousel.GetLeader (lines 54-60): the participants of the
commit head's certificate that are not in lastAuthors, in participant order. -/
def carouselCandidates (st : CarouselState) (parts : List Nat) : List Nat :=
  parts.filter fun a =>
    !((collectLastAuthors st.chain (numFaulty st.numReplicas) st.commitHead []).contains a)

/-- carousel.GetLeader (src/leaderrotation/carousel.go lines 25-66).  rnd is the next
output of the carousel's PRNG (c.rnd.Int(), non-negative), seeded from wall-clock time
in NewCarousel.  When the candidate list is empty the Go code panics on the modulo and
index; the model returns 0 there, and theorems only use states whose candidate list is
non-empty (which holds under the quorum assumption, see the C10 theorem). -/
def getLeader (st : CarouselState) (round : Nat) (rnd : Nat) : Nat :=
  match st.qcParticipants with
  | none => chooseRoundRobin round st.numReplicas
  | some parts =>
    if st.commitHead.view ≠ viewSub round st.chainLength then
      chooseRoundRobin round st.numReplicas
    else
      let candidates := carouselCandidates st parts
      (candidates.get? (rnd % candidates.length)).getD 0

/-- Commit head used in the carousel counterexamples: proposed by replica 2, its parent
proposed by replica 1. -/
def cexHead : CBlock := ⟨2, 1, 3, 2⟩

/-- The parent of cexHead, proposed by replica 1. -/
def cexParent : CBlock := ⟨1, 0, 2, 1⟩

/-- Carousel state for the C5 counterexample: N = 4 replicas (so f = 1), chain length 3,
certificate participants 1 and 2. -/
def cexState : CarouselState := ⟨cexHead, some [1, 2], [cexHead, cexParent], 4, 3⟩

/-- Carousel state for the C6 counterexample: as cexState but with certificate
participants 1 and 3, so that two candidates survive the lastAuthors filter. -/
def cex2State : CarouselState := ⟨cexHead, some [1, 3], [cexHead, cexParent], 4, 3⟩

/-- Commit head used in the carousel witnesses: proposed by replica 1. -/
def wHead : CBlock := ⟨2, 1, 3, 1⟩

/-- Parent of wHead, proposed by replica 2. -/
def wParent : CBlock := ⟨1, 0, 2, 2⟩

/-- Carousel state for the amended-C5 and C6 witnesses: N = 4, chain length 3,
certificate participants 1 and 2, commit head proposed by replica 1. -/
def wState : CarouselState := ⟨wHead, some [1, 2], [wHead, wParent], 4, 3⟩

/-- Carousel state for the C10 witness: N = 4 (quorum 3), certificate participants
1, 2 and 3. -/
def qState : CarouselState := ⟨wHead, some [1, 2, 3], [wHead, wParent], 4, 3⟩

/-- C2: the claim is refuted by the code.  The two batches (id 1 mapped to byte 0 versus
id 1 mapped to byte 1) have different sorted message concatenations, yet BatchVerify
computes the same cache key for both, because hasher.Sum's return value is discarded and
the digest part of the key stays zero.  Consequently a successful BatchVerify of the
first batch makes BatchVerify of the second batch return true from the cache even though
the primitive rejects the second batch. -/
theorem batch_key_collision_bug :
    sortedConcat [(1, [0])] ≠ sortedConcat [(1, [1])] ∧
    batchKey pBug 0 [(1, [0])] = batchKey pBug 0 [(1, [1])] ∧
    (cacheBatchVerify pBug (initCache 100) 0 [(1, [0])]).1 = true ∧
    pBug.batchVerify 0 [(1, [1])] = false ∧
    (cacheBatchVerify pBug
      (cacheBatchVerify pBug (initCache 100) 0 [(1, [0])]).2.2 0 [(1, [1])]).1 = true := by
  decide

lemma evictOrder_subset (cap : Nat) (l : List CacheKey) : evictOrder cap l ⊆ l := by
  unfold evictOrder
  split
  · exact fun a h => h
  · exact (List.dropLast_sublist l).subset

lemma cacheInsert_order_subset (s : CacheState) (k : CacheKey) :
    (cacheInsert s k).order ⊆ k :: s.order := by
  unfold cacheInsert
  split
  · exact List.cons_subset_cons k (List.erase_subset ..)
  · exact List.cons_subset_cons k (evictOrder_subset ..)

lemma mem_cacheInsert_self (s : CacheState) (k : CacheKey) : k ∈ (cacheInsert s k).order := by
  unfold cacheInsert
  split <;> exact List.mem_cons_self ..

lemma cacheCheck_order_subset (s : CacheState) (k : CacheKey) :
    (cacheCheck s k).2.order ⊆ s.order := by
  unfold cacheCheck
  split
  next h => exact List.cons_subset.mpr ⟨h, List.erase_subset ..⟩
  next => exact fun a ha => ha

lemma goodKeys_of_subset {p : Primitive} {l l' : List CacheKey} (hsub : l' ⊆ l)
    (h : GoodKeys p l) : GoodKeys p l' := fun m sig hm => h m sig (hsub hm)

lemma goodKeys_insert_single {p : Primitive} {s : CacheState} {m sig : Nat}
    (h1 : Function.Injective p.hashMsg) (h2 : Function.Injective p.sigBytes)
    (h : GoodKeys p s.order) (hv : p.verify sig m = true) :
    GoodKeys p (cacheInsert s (singleKey p sig m)).order := by
  intro m1 sig1 hm
  rcases List.mem_cons.mp (cacheInsert_order_subset _ _ hm) with heq | hmem
  · simp only [singleKey, Prod.mk.injEq] at heq
    rw [h1 heq.1, h2 heq.2]
    exact hv
  · exact h m1 sig1 hmem

lemma goodKeys_insert_batch {p : Primitive} {s : CacheState} {sig : Nat}
    {b : List (Nat × List Nat)} (h0 : ∀ m, p.hashMsg m ≠ 0) (h : GoodKeys p s.order) :
    GoodKeys p (cacheInsert s (batchKey p sig b)).order := by
  intro m1 sig1 hm
  rcases List.mem_cons.mp (cacheInsert_order_subset _ _ hm) with heq | hmem
  · simp only [singleKey, batchKey, Prod.mk.injEq] at heq
    exact absurd heq.1 (h0 m1)
  · exact h m1 sig1 hmem

lemma reach_goodKeys {p : Primitive} {cap : Nat} {s : CacheState}
    (h1 : Function.Injective p.hashMsg) (h2 : Function.Injective p.sigBytes)
    (h0 : ∀ m, p.hashMsg m ≠ 0)
    (hs : ∀ m sig, p.sign m = some sig → p.verify sig m = true)
    (hr : Reach p cap s) : GoodKeys p s.order := by
  induction hr with
  | init => intro m sig hm; simp [initCache] at hm
  | sign m s _ ih =>
      cases hsm : p.sign m with
      | none => simpa [cacheSign, hsm] using ih
      | some sig =>
          simp only [cacheSign, hsm]
          exact goodKeys_insert_single h1 h2 ih (hs m sig hsm)
  | verify sig m s _ ih =>
      by_cases hk : singleKey p sig m ∈ s.order
      · simp only [cacheVerify, cacheCheck, hk, if_true, reduceIte]
        exact goodKeys_of_subset (List.cons_subset.mpr ⟨hk, List.erase_subset ..⟩) ih
      · by_cases hv : p.verify sig m
        · simp only [cacheVerify, cacheCheck, hk, reduceIte, hv]
          exact goodKeys_insert_single h1 h2 ih hv
        · simpa [cacheVerify, cacheCheck, hk, hv] using ih
  | batch sig b s _ ih =>
      by_cases hk : batchKey p sig b ∈ s.order
      · simp only [cacheBatchVerify, cacheCheck, hk, reduceIte]
        exact goodKeys_of_subset (List.cons_subset.mpr ⟨hk, List.erase_subset ..⟩) ih
      · by_cases hv : p.batchVerify sig b
        · simp only [cacheBatchVerify, cacheCheck, hk, reduceIte, hv]
          exact goodKeys_insert_batch h0 ih
        · simpa [cacheBatchVerify, cacheCheck, hk, hv] using ih

/-- C1: for every cache state reachable by any prior sequence of Sign, Verify and
BatchVerify calls, the cached verifier agrees with the underlying primitive, so the cache
never returns true for a pair the primitive would reject.  The hypotheses idealize the
external functions: sha256 is injective on messages and never produces the all-zero
digest, ToBytes is injective on signatures, and the primitive verifies the signatures it
itself produced. -/
theorem cache_verify_agrees_primitive (p : Primitive) (cap : Nat) (s : CacheState)
    (h1 : Function.Injective p.hashMsg) (h2 : Function.Injective p.sigBytes)
    (h0 : ∀ m, p.hashMsg m ≠ 0)
    (hs : ∀ m sig, p.sign m = some sig → p.verify sig m = true)
    (hr : Reach p cap s) (sig m : Nat) :
    (cacheVerify p s sig m).1 = p.verify sig m := by
  have hg := reach_goodKeys h1 h2 h0 hs hr
  by_cases hk : singleKey p sig m ∈ s.order
  · have hv := hg m sig hk
    simp [cacheVerify, cacheCheck, hk, hv]
  · by_cases hv : p.verify sig m <;> simp [cacheVerify, cacheCheck, hk, hv]

/-- Witness for C1 at a concrete primitive, state and pair. -/
theorem cache_verify_agrees_primitive_witness :
    (cacheVerify pOk (initCache 100) 5 7).1 = pOk.verify 5 7 :=
  cache_verify_agrees_primitive pOk 100 (initCache 100)
    (fun a b h => by simpa [pOk] using h)
    (fun a b h => by simpa [pOk] using h)
    (fun m => by simp [pOk])
    (fun m sig h => by simp [pOk])
    Reach.init 5 7

lemma cacheInsert_capacity (s : CacheState) (k : CacheKey) :
    (cacheInsert s k).capacity = s.capacity := by
  unfold cacheInsert
  split <;> rfl

lemma cacheCheck_capacity (s : CacheState) (k : CacheKey) :
    (cacheCheck s k).2.capacity = s.capacity := by
  unfold cacheCheck
  split <;> rfl

lemma cacheInsert_length_le {s : CacheState} {k : CacheKey} (hc : 0 < s.capacity)
    (h : s.order.length ≤ s.capacity) :
    (cacheInsert s k).order.length ≤ s.capacity := by
  unfold cacheInsert
  by_cases hk : k ∈ s.order
  · have h1 : 1 ≤ s.order.length := List.length_pos.mpr (List.ne_nil_of_mem hk)
    simp [hk, List.length_erase_of_mem hk]
    omega
  · simp only [hk, reduceIte]
    unfold evictOrder
    by_cases hl : s.order.length < s.capacity
    · simp [hl]; omega
    · simp [hl, List.length_dropLast]; omega

lemma cacheCheck_length (s : CacheState) (k : CacheKey) :
    (cacheCheck s k).2.order.length ≤ s.order.length := by
  unfold cacheCheck
  by_cases hk : k ∈ s.order
  · have h1 : 1 ≤ s.order.length := List.length_pos.mpr (List.ne_nil_of_mem hk)
    simp [hk, List.length_erase_of_mem hk]
    omega
  · simp [hk]

lemma reach_bound {p : Primitive} {cap : Nat} {s : CacheState}
    (hc : 0 < cap) (hr : Reach p cap s) : s.capacity = cap ∧ s.order.length ≤ cap := by
  induction hr with
  | init => exact ⟨rfl, Nat.zero_le cap⟩
  | sign m s _ ih =>
      cases hsm : p.sign m with
      | none => simpa [cacheSign, hsm] using ih
      | some sig =>
          simp only [cacheSign, hsm]
          refine ⟨by rw [cacheInsert_capacity]; exact ih.1, ?_⟩
          have := cacheInsert_length_le (s := s) (k := singleKey p sig m)
            (by rw [ih.1]; exact hc) (by rw [ih.1]; exact ih.2)
          rwa [ih.1] at this
  | verify sig m s _ ih =>
      by_cases hk : singleKey p sig m ∈ s.order
      · simp only [cacheVerify, cacheCheck, hk, reduceIte]
        have h1 : 1 ≤ s.order.length := List.length_pos.mpr (List.ne_nil_of_mem hk)
        refine ⟨ih.1, ?_⟩
        simpa [List.length_erase_of_mem hk] using by omega
      · by_cases hv : p.verify sig m
        · simp only [cacheVerify, cacheCheck, hk, reduceIte, hv, Bool.false_eq_true]
          refine ⟨by rw [cacheInsert_capacity]; exact ih.1, ?_⟩
          have := cacheInsert_length_le (s := s) (k := singleKey p sig m)
            (by rw [ih.1]; exact hc) (by rw [ih.1]; exact ih.2)
          rwa [ih.1] at this
        · simpa [cacheVerify, cacheCheck, hk, hv] using ih
  | batch sig b s _ ih =>
      by_cases hk : batchKey p sig b ∈ s.order
      · simp only [cacheBatchVerify, cacheCheck, hk, reduceIte]
        have h1 : 1 ≤ s.order.length := List.length_pos.mpr (List.ne_nil_of_mem hk)
        refine ⟨ih.1, ?_⟩
        simpa [List.length_erase_of_mem hk] using by omega
      · by_cases hv : p.batchVerify sig b
        · simp only [cacheBatchVerify, cacheCheck, hk, reduceIte, hv, Bool.false_eq_true]
          refine ⟨by rw [cacheInsert_capacity]; exact ih.1, ?_⟩
          have := cacheInsert_length_le (s := s) (k := batchKey p sig b)
            (by rw [ih.1]; exact hc) (by rw [ih.1]; exact ih.2)
          rwa [ih.1] at this
        · simpa [cacheBatchVerify, cacheCheck, hk, hv] using ih

/-- C8: the cache is bounded by construction.  For every positive configured capacity and
every sequence of Sign, Verify and BatchVerify operations, the number of entries never
exceeds the capacity: an insert at size = capacity first evicts the least recently used
key, and lookups or re-inserts of present keys only reorder the list.  (With capacity 0
the Go evict would dereference a nil list element, so positivity is assumed.) -/
theorem cache_size_bounded (p : Primitive) (cap : Nat) (s : CacheState)
    (hc : 0 < cap) (hr : Reach p cap s) : s.order.length ≤ cap :=
  (reach_bound hc hr).2

/-- Witness for C8 after a concrete Sign operation on a capacity-1 cache. -/
theorem cache_size_bounded_witness :
    (cacheSign pOk (initCache 1) 3).2.order.length ≤ 1 :=
  cache_size_bounded pOk 1 (cacheSign pOk (initCache 1) 3).2 (by decide)
    (Reach.sign 3 (initCache 1) Reach.init)

/-- C9: if Sign succeeds with signature sig, an immediately following Verify of sig
against the same message returns true via the cache without invoking the primitive
(the delegation flag is false).  Positivity of the capacity matches the Go code, whose
insert would crash on a full capacity-0 cache. -/
theorem sign_then_verify_hits_cache (p : Primitive) (s : CacheState) (m sig : Nat)
    (_hcap : 0 < s.capacity) (h : (cacheSign p s m).1 = some sig) :
    (cacheVerify p (cacheSign p s m).2 sig m).1 = true ∧
    (cacheVerify p (cacheSign p s m).2 sig m).2.1 = false := by
  cases hsm : p.sign m with
  | none => simp [cacheSign, hsm] at h
  | some sig0 =>
      have hsig : sig0 = sig := by simpa [cacheSign, hsm] using h
      subst hsig
      have hmem : singleKey p sig0 m ∈ (cacheSign p s m).2.order := by
        simp only [cacheSign, hsm]
        exact mem_cacheInsert_self ..
      simp [cacheVerify, cacheCheck, hmem]

/-- Witness for C9 at a concrete primitive and message. -/
theorem sign_then_verify_hits_cache_witness :
    (cacheVerify pOk (cacheSign pOk (initCache 100) 9).2 9 9).1 = true ∧
    (cacheVerify pOk (cacheSign pOk (initCache 100) 9).2 9 9).2.1 = false :=
  sign_then_verify_hits_cache pOk (initCache 100) 9 9 (by decide) (by decide)

lemma insertAll_append_singleton (s : CacheState) (ks : List CacheKey) (k : CacheKey) :
    insertAll s (ks ++ [k]) = cacheInsert (insertAll s ks) k := by
  simp [insertAll]

lemma insertAll_capacity (s : CacheState) (ks : List CacheKey) :
    (insertAll s ks).capacity = s.capacity := by
  induction ks using List.reverseRecOn with
  | nil => rfl
  | append_singleton ks k ih =>
      rw [insertAll_append_singleton, cacheInsert_capacity, ih]

lemma evictOrder_take (c : Nat) (r : List CacheKey) :
    evictOrder (c + 1) (r.take (c + 1)) = r.take c := by
  unfold evictOrder
  by_cases hl : r.length < c + 1
  · rw [List.take_of_length_le (by omega), if_pos (by omega),
      List.take_of_length_le (by omega)]
  · have hcr : c < r.length := by omega
    have hlen : (r.take (c + 1)).length = c + 1 := by
      simp [List.length_take]
      omega
    rw [if_neg (by rw [hlen]; omega), List.take_succ, List.getElem?_eq_getElem hcr]
    simp only [Option.toList_some, List.dropLast_concat]

/-- After inserting a duplicate-free sequence of keys into an empty cache with positive
capacity, the cache holds exactly the most recent capacity-many keys, most recent
first. -/
lemma insertAll_fresh (cap : Nat) (hc : 0 < cap) (ks : List CacheKey) (hnd : ks.Nodup) :
    (insertAll (initCache cap) ks).order = ks.reverse.take cap := by
  induction ks using List.reverseRecOn with
  | nil => simp [insertAll, initCache]
  | append_singleton ks k ih =>
      rw [List.nodup_append] at hnd
      have hks : ks.Nodup := hnd.1
      have hkn : k ∉ ks := fun hmem => hnd.2.2 hmem (List.mem_singleton.mpr rfl)
      have hord := ih hks
      have hknotin : k ∉ (insertAll (initCache cap) ks).order := by
        rw [hord]
        intro hmem
        exact hkn (by simpa using List.take_subset _ _ hmem)
      rw [insertAll_append_singleton]
      unfold cacheInsert
      rw [if_neg hknotin]
      obtain ⟨c, rfl⟩ : ∃ c, cap = c + 1 := ⟨cap - 1, (Nat.succ_pred_eq_of_pos hc).symm⟩
      show k :: evictOrder (insertAll (initCache (c + 1)) ks).capacity
          (insertAll (initCache (c + 1)) ks).order = ((ks ++ [k]).reverse).take (c + 1)
      rw [insertAll_capacity, hord, List.reverse_append]
      show k :: evictOrder (c + 1) (ks.reverse.take (c + 1)) = (k :: ks.reverse).take (c + 1)
      rw [evictOrder_take, List.take_succ_cons]

lemma get_not_mem_take {l : List CacheKey} (hnd : l.Nodup) {n : Nat} (h : n < l.length) :
    l.get ⟨n, h⟩ ∉ l.take n := by
  intro hmem
  have hnd2 : (l.take n ++ l.drop n).Nodup := by rw [List.take_append_drop]; exact hnd
  have hdisj := (List.nodup_append.mp hnd2).2.2
  have hdrop : l.get ⟨n, h⟩ ∈ l.drop n := by
    rw [List.get_eq_getElem, List.drop_eq_getElem_cons h]
    exact List.mem_cons_self ..
  exact hdisj hmem hdrop

/-- C7 counterexample: with capacity 1 and two insertions of distinct keys, the
capacity-th-most-recent inserted key (the first most recent, i.e. the key inserted last)
is still present in the cache, refuting the claim that it is absent.  The first
conjunct identifies the capacity-th-most-recent key. -/
theorem lru_capacityth_recent_present_cex :
    [((0 : Nat), ([] : List Nat)), (1, [])].reverse.get? 0 = some (1, []) ∧
    (1, []) ∈ (insertAll (initCache 1) [((0 : Nat), ([] : List Nat)), (1, [])]).order := by
  decide

/-- C7 amended: after k ≥ capacity + 1 insertions of pairwise distinct keys into an empty
cache with positive capacity, the (capacity+1)-th-most-recent inserted key (index
capacity of the reversed insertion sequence, counting the most recent as index 0 and
hence as the first most recent) is absent from the cache.  The capacity-th-most-recent
key is still present, as the counterexample shows. -/
theorem lru_eviction_capacity_plus_one (cap : Nat) (hc : 0 < cap) (ks : List CacheKey)
    (hnd : ks.Nodup) (h : cap < ks.reverse.length) :
    ks.reverse.get ⟨cap, h⟩ ∉ (insertAll (initCache cap) ks).order := by
  rw [insertAll_fresh cap hc ks hnd]
  exact get_not_mem_take (by simpa using hnd) h

/-- Witness for the amended C7 with capacity 1 and three distinct keys. -/
theorem lru_eviction_capacity_plus_one_witness :
    [((0 : Nat), ([] : List Nat)), (1, []), (2, [])].reverse.get ⟨1, by decide⟩ ∉
      (insertAll (initCache 1) [((0 : Nat), ([] : List Nat)), (1, []), (2, [])]).order :=
  lru_eviction_capacity_plus_one 1 (by decide) _ (by decide) (by decide)

lemma groupHashAt_none {r : List (List Nat)} {i : Nat} (h : groupLen r ≤ i) :
    groupHashAt r i = none := by
  rcases r with _ | ⟨blocks, _ | ⟨b2, rest⟩⟩
  · rfl
  · exact List.get?_eq_none.mpr h
  · rfl

lemma groupLen_le_maxCommits {g : ReplicaGroups} {r : List (List Nat)} (hr : r ∈ g) :
    groupLen r ≤ maxCommits g := by
  induction g with
  | nil => cases hr
  | cons a g ih =>
      rcases List.mem_cons.mp hr with rfl | hmem
      · exact Nat.le_max_left ..
      · exact le_trans (ih hmem) (Nat.le_max_right ..)

lemma hashesAt_maxCommits {g : ReplicaGroups} {i : Nat} (h : maxCommits g ≤ i) :
    hashesAt g i = [] := by
  rw [hashesAt, List.filterMap_eq_nil_iff]
  exact fun r hr => groupHashAt_none (le_trans (groupLen_le_maxCommits hr) h)

lemma hashesAt_empty_mono {g : ReplicaGroups} {i j : Nat} (hij : i ≤ j)
    (h : hashesAt g i = []) : hashesAt g j = [] := by
  rw [hashesAt, List.filterMap_eq_nil_iff] at h ⊢
  intro r hr
  have hri := h r hr
  rcases r with _ | ⟨blocks, _ | ⟨b2, rest⟩⟩
  · rfl
  · exact List.get?_eq_none.mpr (le_trans (List.get?_eq_none.mp hri) hij)
  · rfl

lemma dedup_length_pos {l : List Nat} (h : l ≠ []) : 1 ≤ l.dedup.length :=
  List.length_pos.mpr fun hd => h ((List.dedup_eq_nil l).mp hd)

lemma checkCommitsAux_true_iff (g : ReplicaGroups) :
    ∀ fuel i, maxCommits g ≤ fuel + i →
      ((checkCommitsAux g fuel i).1 = true ↔
        ∀ j, i ≤ j → (hashesAt g j).dedup.length ≤ 1) := by
  intro fuel
  induction fuel with
  | zero =>
      intro i hf
      simp only [checkCommitsAux]
      constructor
      · intro _ j hj
        rw [hashesAt_maxCommits (le_trans hf (by omega))]
        simp [List.dedup_nil]
      · intro _
        trivial
  | succ fuel ih =>
      intro i hf
      by_cases he : hashesAt g i = []
      · simp only [checkCommitsAux, he, List.isEmpty_nil, reduceIte]
        constructor
        · intro _ j hj
          rw [hashesAt_empty_mono hj he]
          simp [List.dedup_nil]
        · intro _
          trivial
      · have hne : (hashesAt g i).isEmpty = false := List.isEmpty_eq_false.mpr he
        by_cases hd : (hashesAt g i).dedup.length = 1
        · simp only [checkCommitsAux, hne, Bool.false_eq_true, reduceIte, hd]
          rw [ih (i + 1) (by omega)]
          constructor
          · intro hall j hj
            rcases Nat.eq_or_lt_of_le hj with rfl | hlt
            · omega
            · exact hall j (by omega)
          · intro hall j hj
            exact hall j (by omega)
        · have h2 : 2 ≤ (hashesAt g i).dedup.length := by
            have h1 := dedup_length_pos he
            omega
          simp only [checkCommitsAux, hne, Bool.false_eq_true, reduceIte, hd]
          constructor
          · intro hfalse
            simp at hfalse
          · intro hall
            have := hall i (le_refl i)
            omega

lemma checkCommitsAux_false (g : ReplicaGroups) (i0 : Nat)
    (hbad : 2 ≤ (hashesAt g i0).dedup.length)
    (hgood : ∀ j, j < i0 → (hashesAt g j).dedup.length ≤ 1) :
    ∀ fuel i, i ≤ i0 → i0 - i < fuel → checkCommitsAux g fuel i = (false, i0) := by
  intro fuel
  induction fuel with
  | zero =>
      intro i hii hfuel
      omega
  | succ fuel ih =>
      intro i hii hfuel
      have hne0 : hashesAt g i0 ≠ [] := by
        intro hnil
        rw [hnil] at hbad
        simp [List.dedup_nil] at hbad
      have hne : hashesAt g i ≠ [] := fun hnil => hne0 (hashesAt_empty_mono hii hnil)
      have hneb : (hashesAt g i).isEmpty = false := List.isEmpty_eq_false.mpr hne
      rcases Nat.eq_or_lt_of_le hii with rfl | hlt
      · have hd : ¬(hashesAt g i).dedup.length = 1 := by omega
        simp only [checkCommitsAux, hneb, Bool.false_eq_true, reduceIte, hd]
      · have hd : (hashesAt g i).dedup.length = 1 := by
          have hle := hgood i hlt
          have hpos := dedup_length_pos hne
          omega
        simp only [checkCommitsAux, hneb, Bool.false_eq_true, reduceIte, hd]
        exact ih (i + 1) (by omega) (by omega)

/-- C3: for every twins network state, checkCommits returns Safe = true iff at every
chain position the set of hashes committed there by non-twin replicas that executed that
many blocks is a singleton or empty, and the first position with two or more distinct
hashes makes the result (false, i). -/
theorem checkCommits_safe_iff_agreement (g : ReplicaGroups) :
    ((checkCommits g).1 = true ↔ ∀ i, (hashesAt g i).dedup.length ≤ 1) ∧
    (∀ i, 2 ≤ (hashesAt g i).dedup.length →
      (∀ j, j < i → (hashesAt g j).dedup.length ≤ 1) →
      checkCommits g = (false, i)) := by
  constructor
  · rw [checkCommits, checkCommitsAux_true_iff g (maxCommits g + 1) 0 (by omega)]
    constructor
    · intro h i
      exact h i (Nat.zero_le i)
    · intro h j _
      exact h j
  · intro i hbad hgood
    have hne : hashesAt g i ≠ [] := by
      intro hnil
      rw [hnil] at hbad
      simp [List.dedup_nil] at hbad
    have hlt : i < maxCommits g := by
      by_contra hcon
      exact hne (hashesAt_maxCommits (by omega))
    exact checkCommitsAux_false g i hbad hgood (maxCommits g + 1) 0 (Nat.zero_le i)
      (by omega)

/-- Witness for C3: two non-twin replicas committing different hashes at position 0 make
the scenario unsafe with violation index 0. -/
theorem checkCommits_safe_iff_agreement_witness :
    checkCommits [[[10]], [[20]]] = (false, 0) :=
  (checkCommits_safe_iff_agreement [[[10]], [[20]]]).2 0 (by decide)
    (fun j hj => absurd hj (Nat.not_lt_zero j))

/-- C4: the drop decision of the twins network at send time.  The effective view of the
claim is max(effectiveView, syncView), compared and converted as the uint64 it is in Go.
It is positive because synchronizer views start at 1 (for the unreachable effective view
0 the Go code returns false, i.e. delivers), and it is below 2^63 because views start at
1 and advance by one per view change, so a run can never reach the views whose int64
conversion goes negative (for uint64 views in (2^63, 2^64) the Go index wraps negative
and the message is delivered instead of dropped, and at exactly 2^63 the addition wraps
to 2^63 - 1).  Within that representable range, with i = effective view - 1: an index at
or past the end of the view plan drops the message, and otherwise the message survives
iff some partition of entry i contains both the sender and the receiver NetworkID, else
it is dropped iff its type is in the drop set. -/
theorem shouldDrop_partition_decision (views : List TView) (dropTypes : List Nat)
    (effView syncView sender receiver msgType : Nat)
    (hpos : 1 ≤ max effView syncView) (hrep : max effView syncView < 2 ^ 63) :
    (views.length ≤ max effView syncView - 1 →
      shouldDrop views dropTypes effView syncView sender receiver msgType = true) ∧
    (∀ h : max effView syncView - 1 < views.length,
      (shouldDrop views dropTypes effView syncView sender receiver msgType = false ↔
        (∃ p ∈ (views.get ⟨max effView syncView - 1, h⟩).partitions,
            sender ∈ p ∧ receiver ∈ p) ∨
          msgType ∉ dropTypes)) := by
  have hE : effView < 2 ^ 63 := lt_of_le_of_lt (le_max_left ..) hrep
  have hS : syncView < 2 ^ 63 := lt_of_le_of_lt (le_max_right ..) hrep
  have hmE : effView % 2 ^ 64 = effView := Nat.mod_eq_of_lt (by omega)
  have hmS : syncView % 2 ^ 64 = syncView := Nat.mod_eq_of_lt (by omega)
  have hvE : viewToInt effView = (effView : Int) := by
    unfold viewToInt wrapInt64
    rw [hmE]
    omega
  have hvS : viewToInt syncView = (syncView : Int) := by
    unfold viewToInt wrapInt64
    rw [hmS]
    omega
  have hmax : (if effView % 2 ^ 64 > syncView % 2 ^ 64 then viewToInt effView
      else viewToInt syncView) = ((max effView syncView : Nat) : Int) := by
    rw [hmE, hmS, hvE, hvS]
    rcases Nat.lt_or_ge syncView effView with hlt | hle
    · rw [if_pos hlt, Nat.max_eq_left (le_of_lt hlt)]
    · rw [if_neg (by omega), Nat.max_eq_right hle]
  have hcast : (1 : Int) ≤ ((max effView syncView : Nat) : Int) := by exact_mod_cast hpos
  have hcast2 : ((max effView syncView : Nat) : Int) < 2 ^ 63 := by exact_mod_cast hrep
  have hwrap : wrapInt64 (-1 + ((max effView syncView : Nat) : Int))
      = -1 + ((max effView syncView : Nat) : Int) := by
    unfold wrapInt64
    omega
  have hneg : ¬(-1 + ((max effView syncView : Nat) : Int) < 0) := by omega
  have htn : (-1 + ((max effView syncView : Nat) : Int)).toNat
      = max effView syncView - 1 := by omega
  constructor
  · intro hlen
    unfold shouldDrop
    simp only [hmax, hwrap]
    rw [if_neg hneg]
    rw [dif_neg (by rw [htn]; omega)]
  · intro h
    unfold shouldDrop
    simp only [hmax, hwrap]
    rw [if_neg hneg]
    simp only [htn]
    rw [dif_pos h]
    by_cases hany : ((views.get ⟨max effView syncView - 1, h⟩).partitions.any
        (fun p => p.contains sender && p.contains receiver)) = true
    · rw [if_pos hany]
      rcases List.any_eq_true.mp hany with ⟨p, hp, hpc⟩
      simp only [Bool.and_eq_true] at hpc
      constructor
      · intro _
        exact Or.inl ⟨p, hp, by simpa using hpc.1, by simpa using hpc.2⟩
      · intro _
        rfl
    · rw [if_neg hany]
      constructor
      · intro hcont
        right
        intro hmem
        simp [hmem] at hcont
      · intro hor
        rcases hor with ⟨p, hp, hs, hr⟩ | hnot
        · exact absurd (List.any_eq_true.mpr ⟨p, hp, by simp [hs, hr]⟩) hany
        · simp [hnot]

/-- Witness for C4 at a concrete view plan: sender 1 and receiver 2 share the first
partition of view 1, so the message survives. -/
theorem shouldDrop_partition_decision_witness :
    shouldDrop [⟨1, [[1, 2], [3, 4]]⟩] [7] 0 1 1 2 7 = false :=
  ((shouldDrop_partition_decision [⟨1, [[1, 2], [3, 4]]⟩] [7] 0 1 1 2 7 (by decide)
      (by decide)).2
    (by decide)).mpr (Or.inl ⟨[1, 2], by decide, by decide, by decide⟩)

lemma mem_addID_self (acc : List Nat) (a : Nat) : a ∈ addID acc a := by
  unfold addID
  split
  next h => exact h
  next => exact List.mem_cons_self ..

lemma mem_addID_of_mem {acc : List Nat} {b : Nat} (h : b ∈ acc) (a : Nat) :
    b ∈ addID acc a := by
  unfold addID
  split
  · exact h
  · exact List.mem_cons_of_mem _ h

lemma addID_length_le (acc : List Nat) (a : Nat) :
    (addID acc a).length ≤ acc.length + 1 := by
  unfold addID
  split
  · omega
  · simp

lemma collectLastAuthors_mem_acc (chain : List CBlock) (a : Nat) :
    ∀ n block acc, a ∈ acc → a ∈ collectLastAuthors chain n block acc := by
  intro n
  induction n with
  | zero =>
      intro block acc h
      exact h
  | succ n ih =>
      intro block acc h
      unfold collectLastAuthors
      split
      · exact h
      · cases hb : bcGet chain block.parent with
        | some b => exact ih b _ (mem_addID_of_mem h _)
        | none => exact mem_addID_of_mem h _

lemma collectLastAuthors_head_mem (chain : List CBlock) (n : Nat) (block : CBlock)
    (acc : List Nat) (hn : 0 < n) (hg : block ≠ genesisBlock) :
    block.proposer ∈ collectLastAuthors chain n block acc := by
  cases n with
  | zero => omega
  | succ n =>
      unfold collectLastAuthors
      rw [if_neg hg]
      cases hb : bcGet chain block.parent with
      | some b => exact collectLastAuthors_mem_acc chain _ n b _ (mem_addID_self ..)
      | none => exact mem_addID_self ..

lemma collectLastAuthors_length_le (chain : List CBlock) :
    ∀ n block acc, (collectLastAuthors chain n block acc).length ≤ n + acc.length := by
  intro n
  induction n with
  | zero =>
      intro block acc
      simp [collectLastAuthors]
  | succ n ih =>
      intro block acc
      unfold collectLastAuthors
      split
      · omega
      · split
        · rename_i b hb
          have h1 := ih b (addID acc block.proposer)
          have h2 := addID_length_le acc block.proposer
          omega
        · have h2 := addID_length_le acc block.proposer
          omega

lemma getLeader_carousel {st : CarouselState} {round rnd : Nat} {parts : List Nat}
    (hp : st.qcParticipants = some parts)
    (hv : st.commitHead.view = viewSub round st.chainLength)
    (hne : carouselCandidates st parts ≠ []) :
    ∃ hlt : rnd % (carouselCandidates st parts).length
        < (carouselCandidates st parts).length,
      getLeader st round rnd = (carouselCandidates st parts).get
        ⟨rnd % (carouselCandidates st parts).length, hlt⟩ := by
  have hlen : 0 < (carouselCandidates st parts).length := List.length_pos.mpr hne
  refine ⟨Nat.mod_lt _ hlen, ?_⟩
  simp only [getLeader, hp]
  rw [if_neg (not_not_intro hv)]
  show ((carouselCandidates st parts).get?
      (rnd % (carouselCandidates st parts).length)).getD 0 = _
  rw [List.get?_eq_get (Nat.mod_lt _ hlen)]
  rfl

lemma length_filter_not_add (p : Nat → Bool) (l : List Nat) :
    (l.filter fun a => !p a).length + (l.filter p).length = l.length := by
  induction l with
  | nil => rfl
  | cons x l ih =>
      by_cases h : p x = true <;> simp [List.filter_cons, h] <;> omega

/-- C5 counterexample: with N = 4 (f = 1) the lastAuthors walk collects the commit
head's own proposer (replica 2) and stops, so even though the last f = 1 ancestors of
the commit head (its parent) were all proposed by replica 1, the chosen leader is
replica 1 itself, refuting the claim that the leader lies in participants minus the
recent ancestor proposers. -/
theorem carousel_skips_fth_ancestor_cex :
    numFaulty cexState.numReplicas = 1 ∧
    bcGet cexState.chain cexState.commitHead.parent = some cexParent ∧
    cexParent.proposer = 1 ∧
    cexState.qcParticipants = some [1, 2] ∧
    (1 : Nat) ∈ [1, 2] ∧
    cexState.commitHead.view = viewSub 6 cexState.chainLength ∧
    getLeader cexState 6 0 = 1 := by
  decide

/-- C5 amended: carousel leader election falls back to round-robin when there is no
committed block (nil certificate signature) or when the commit head's view is not
round - chainLength; otherwise it collects into lastAuthors the proposers of up to f
blocks starting at the commit head itself (the head and up to f-1 of its ancestors) and,
when the candidate list is non-empty, returns a member of the certificate participants
that is not in lastAuthors.  In particular, whenever the commit head itself was proposed
by replica 1 (as happens when the head and its last f-1 ancestors were all proposed by
replica 1), the chosen leader differs from replica 1. -/
theorem carousel_leader_characterization (st : CarouselState) (round rnd : Nat) :
    (st.qcParticipants = none →
      getLeader st round rnd = chooseRoundRobin round st.numReplicas) ∧
    (∀ parts, st.qcParticipants = some parts →
      st.commitHead.view ≠ viewSub round st.chainLength →
      getLeader st round rnd = chooseRoundRobin round st.numReplicas) ∧
    (∀ parts, st.qcParticipants = some parts →
      st.commitHead.view = viewSub round st.chainLength →
      carouselCandidates st parts ≠ [] →
      getLeader st round rnd ∈ parts ∧
      getLeader st round rnd ∉
        collectLastAuthors st.chain (numFaulty st.numReplicas) st.commitHead []) ∧
    (∀ parts, st.qcParticipants = some parts →
      st.commitHead.view = viewSub round st.chainLength →
      carouselCandidates st parts ≠ [] →
      0 < numFaulty st.numReplicas → st.commitHead ≠ genesisBlock →
      st.commitHead.proposer = 1 →
      getLeader st round rnd ≠ 1) := by
  have hmain : ∀ parts, st.qcParticipants = some parts →
      st.commitHead.view = viewSub round st.chainLength →
      carouselCandidates st parts ≠ [] →
      getLeader st round rnd ∈ parts ∧
      getLeader st round rnd ∉
        collectLastAuthors st.chain (numFaulty st.numReplicas) st.commitHead [] := by
    intro parts hp hv hne
    obtain ⟨hlt, heq⟩ := getLeader_carousel hp hv hne
    have hmem : getLeader st round rnd ∈ carouselCandidates st parts := by
      rw [heq]
      exact List.get_mem ..
    rw [carouselCandidates] at hmem
    have hsplit := List.mem_filter.mp hmem
    refine ⟨hsplit.1, ?_⟩
    simpa using hsplit.2
  refine ⟨?_, ?_, hmain, ?_⟩
  · intro h
    simp [getLeader, h]
  · intro parts hp hv
    simp [getLeader, hp, hv]
  · intro parts hp hv hne hf hg hprop
    have h1 := (hmain parts hp hv hne).2
    intro hbad
    apply h1
    rw [hbad, ← hprop]
    exact collectLastAuthors_head_mem st.chain _ st.commitHead [] hf hg

/-- Witness for the amended C5: the commit head of wState was proposed by replica 1, and
the chosen leader lies in the participants and differs from replica 1. -/
theorem carousel_leader_characterization_witness :
    getLeader wState 6 0 ∈ [1, 2] ∧ getLeader wState 6 0 ≠ 1 :=
  ⟨((carousel_leader_characterization wState 6 0).2.2.1 [1, 2] rfl (by decide)
      (by decide)).1,
    (carousel_leader_characterization wState 6 0).2.2.2 [1, 2] rfl (by decide)
      (by decide) (by decide) (by decide) rfl⟩

/-- C6 counterexample: on the same block tree and view, two calls of GetLeader that
consume different PRNG outputs (as successive calls on the time-seeded rand.Rand do)
return different leaders, refuting the claim that GetLeader is a pure function of the
block tree and the view. -/
theorem carousel_depends_on_prng_cex :
    getLeader cex2State 6 0 ≠ getLeader cex2State 6 1 := by
  decide

/-- C6 amended: GetLeader is a deterministic function of the block tree, the view and
the consumed PRNG value, and it mutates no consensus state (in the embedding it only
reads the state; in the Go code only the carousel's own rand.Rand advances): the
round-robin fallback paths are independent of the PRNG value, and on the carousel path
the result depends on the PRNG value only through its remainder modulo the candidate
count.  Because the PRNG is seeded from wall-clock time and advances between calls, the
result is not a function of the block tree and view alone. -/
theorem carousel_deterministic_given_prng (st : CarouselState) (round rnd1 rnd2 : Nat) :
    (st.qcParticipants = none → getLeader st round rnd1 = getLeader st round rnd2) ∧
    (st.commitHead.view ≠ viewSub round st.chainLength →
      getLeader st round rnd1 = getLeader st round rnd2) ∧
    (∀ parts, st.qcParticipants = some parts →
      rnd1 % (carouselCandidates st parts).length
        = rnd2 % (carouselCandidates st parts).length →
      getLeader st round rnd1 = getLeader st round rnd2) := by
  refine ⟨?_, ?_, ?_⟩
  · intro h
    simp [getLeader, h]
  · intro h
    cases hp : st.qcParticipants with
    | none => simp [getLeader, hp]
    | some parts => simp [getLeader, hp, h]
  · intro parts hp hmod
    by_cases hv : st.commitHead.view ≠ viewSub round st.chainLength
    · simp [getLeader, hp, hv]
    · simp only [getLeader, hp]
      rw [if_neg hv, if_neg hv]
      show ((carouselCandidates st parts).get?
            (rnd1 % (carouselCandidates st parts).length)).getD 0
          = ((carouselCandidates st parts).get?
            (rnd2 % (carouselCandidates st parts).length)).getD 0
      rw [hmod]

/-- Witness for the amended C6: two calls on wState whose PRNG values agree modulo the
candidate count return the same leader. -/
theorem carousel_deterministic_given_prng_witness :
    getLeader wState 6 0 = getLeader wState 6 2 :=
  (carousel_deterministic_given_prng wState 6 0 2).2.2 [1, 2] rfl (by decide)

/-- C10: when a committed head exists whose certificate participant set is duplicate
free and has at least quorum size N - f with f = floor((N-1)/3) and N positive, the
candidate list is non-empty (lastAuthors holds at most f proposers while the
participants number at least N - f > f), so the index rnd % len(candidates) used by
GetLeader is in bounds for every PRNG value. -/
theorem carousel_candidates_nonempty (st : CarouselState) (parts : List Nat)
    (hN : 0 < st.numReplicas)
    (_hp : st.qcParticipants = some parts) (hnd : parts.Nodup)
    (hq : st.numReplicas - numFaulty st.numReplicas ≤ parts.length) :
    carouselCandidates st parts ≠ [] ∧
    ∀ rnd, rnd % (carouselCandidates st parts).length
      < (carouselCandidates st parts).length := by
  have hf3 : numFaulty st.numReplicas * 3 ≤ st.numReplicas - 1 :=
    Nat.div_mul_le_self (st.numReplicas - 1) 3
  have hLA : (collectLastAuthors st.chain (numFaulty st.numReplicas)
      st.commitHead []).length ≤ numFaulty st.numReplicas := by
    have := collectLastAuthors_length_le st.chain (numFaulty st.numReplicas)
      st.commitHead []
    simpa using this
  have hsub : parts.filter (fun a =>
      (collectLastAuthors st.chain (numFaulty st.numReplicas) st.commitHead
        []).contains a) ⊆
      collectLastAuthors st.chain (numFaulty st.numReplicas) st.commitHead [] := by
    intro a ha
    have := (List.mem_filter.mp ha).2
    simpa using this
  have hin : (parts.filter (fun a =>
      (collectLastAuthors st.chain (numFaulty st.numReplicas) st.commitHead
        []).contains a)).length ≤ numFaulty st.numReplicas :=
    le_trans ((List.subperm_of_subset (hnd.filter _) hsub).length_le) hLA
  have htot := length_filter_not_add (fun a =>
    (collectLastAuthors st.chain (numFaulty st.numReplicas) st.commitHead
      []).contains a) parts
  have hcand : 0 < (carouselCandidates st parts).length := by
    rw [carouselCandidates]
    omega
  refine ⟨List.length_pos.mp hcand, fun rnd => Nat.mod_lt _ hcand⟩

/-- Witness for C10 with N = 4 and three certificate participants. -/
theorem carousel_candidates_nonempty_witness :
    carouselCandidates qState [1, 2, 3] ≠ [] ∧
    3 % (carouselCandidates qState [1, 2, 3]).length
      < (carouselCandidates qState [1, 2, 3]).length :=
  ⟨(carousel_candidates_nonempty qState [1, 2, 3] (by decide) rfl (by decide)
      (by decide)).1,
    (carousel_candidates_nonempty qState [1, 2, 3] (by decide) rfl (by decide)
      (by decide)).2 3⟩
